import Mathlib

/-!
Verification of the `sort-interfaces` rule (`src/rules/sort-interfaces.ts`) of
eslint-plugin-perfectionist against its natural-language specification.

The rule walks a `TSInterfaceBody`, derives a `SortingNode` (`name`, `size`,
back-reference `node`) for every member, scans adjacent pairs with `pairwise`,
reports a diagnostic through `context.report` whenever `compare` judges the
later element strictly less than the earlier one, and attaches to every report
a fix produced by `sortNodes`.

The AST shapes, the member-name extraction, the option schema and the option
fallback are embedded directly from the source file.  The helpers imported
from `../utils/` (`compare`, `pairwise`, `sortNodes`, `complete`,
`rangeToDiff`) are not part of the inspected sources; each of those is
modelled from the specification and marked as such in its doc comment.
-/

namespace SortInterfaces

/-- The `SortType` enumeration of the source (`alphabetical`, `natural`,
`line-length`); `lineLength` stands for the string `line-length`. -/
inductive SortType
  | alphabetical
  | natural
  | lineLength
  deriving DecidableEq

/-- The `SortOrder` enumeration of the source (`asc`, `desc`). -/
inductive SortOrder
  | asc
  | desc
  deriving DecidableEq

/-- The completed options record the handler works with: `{ type, order }`. -/
structure RuleOptions where
  type : SortType
  order : SortOrder
  deriving DecidableEq

/-- A half-open source span `[start, stop)` as exposed by `element.range`. -/
structure SrcRange where
  start : Nat
  stop : Nat
  deriving DecidableEq

/-- The key of an interface member: a plain identifier (`element.key.type ===
Identifier`, carrying `element.key.name`), a literal (carrying the already
stringified interpolation of `element.key.value`), or any other (computed)
key expression. -/
inductive Key
  | ident (text : String)
  | lit (value : String)
  | computed
  deriving DecidableEq

/-- One member of a `TSInterfaceBody`, restricted to the attributes the rule
reads: `propertySignature` is a `TSPropertySignature` (key, `optional` flag,
optional type-annotation range, full range), `indexSignature` is a
`TSIndexSignature`, and `methodLike` covers every other member kind
(`TSMethodSignature`, call and construct signatures), which may carry a key
and a return-type-annotation range. -/
inductive Element
  | propertySignature (key : Key) (optional : Bool) ( typeAnn : Option SrcRange)
      (range : SrcRange)
  | indexSignature ( typeAnn : Option SrcRange) (range : SrcRange)
  | methodLike (key : Option Key) (optional : Bool) (returnType : Option SrcRange)
      (range : SrcRange)
  deriving DecidableEq

/-- `element.range`. -/
def Element.range : Element → SrcRange
  | .propertySignature _ _ _ r => r
  | .indexSignature _ r => r
  | .methodLike _ _ _ r => r

/-- The key of a member, when it has one. -/
def Element.keyOf : Element → Option Key
  | .propertySignature k _ _ _ => some k
  | .indexSignature _ _ => none
  | .methodLike k _ _ _ => k

/-- The type-annotation range of a member, when present. -/
def Element.typeAnnOf : Element → Option SrcRange
  | .propertySignature _ _ t _ => t
  | .indexSignature t _ => t
  | .methodLike _ _ _ _ => none

/-- The return-type-annotation range of a member, when present. -/
def Element.returnTypeOf : Element → Option SrcRange
  | .methodLike _ _ r _ => r
  | _ => none

/-- The `optional` flag of a member (`?` marker). -/
def Element.optionalOf : Element → Bool
  | .propertySignature _ o _ _ => o
  | .indexSignature _ _ => false
  | .methodLike _ o _ _ => o

/-- `source.text.slice(a, b)`: the characters of positions `a` to `b`
(exclusive) of the raw source text. -/
def sliceText (source : String) (a b : Nat) : String :=
  ⟨(source.data.drop a).take (b - a)⟩

/-- Member-name extraction of the `TSInterfaceBody` handler (source lines
74-104), embedded branch by branch:
* `TSPropertySignature` with an `Identifier` key: the identifier's text;
* `TSPropertySignature` with a `Literal` key: the stringified value;
* `TSPropertySignature` with any other key: slice from the element's start to
  the type-annotation start when that start is truthy (JS: nonzero),
  otherwise to the element's end minus one character when `optional`;
* `TSIndexSignature`: slice from the element's start to the type-annotation
  start, falling back (`??`) to the element's end;
* every other member: slice from the element's start to the return-type
  start, falling back (`??`) to the element's end. -/
def extractName (source : String) (e : Element) : String :=
  match e with
  | .propertySignature key optional typeAnn range =>
    match key with
    | .ident text => text
    | .lit value => value
    | .computed =>
      let endPos : Nat :=
        match typeAnn with
        | some r =>
          if r.start ≠ 0 then r.start else range.stop - (if optional then 1 else 0)
        | none => range.stop - (if optional then 1 else 0)
      sliceText source range.start endPos
  | .indexSignature typeAnn range =>
    sliceText source range.start (( typeAnn.map SrcRange.start).getD range.stop)
  | .methodLike _ _ returnType range =>
    sliceText source range.start ((returnType.map SrcRange.start).getD range.stop)

/-- Modelled from the spec: `rangeToDiff` is imported from
`../utils/range-to-diff`, which is not among the inspected sources; the spec
states "`size` is always end-offset minus start-offset of the full element
span". -/
def rangeToDiff (r : SrcRange) : Nat :=
  r.stop - r.start

/-- The `SortingNode` record built for each member (source lines 106-110). -/
structure SortingNode where
  size : Nat
  node : Element
  name : String
  deriving DecidableEq

/-- Builds the `SortingNode` of one member (source lines 74-111). -/
def mkSortingNode (source : String) (e : Element) : SortingNode :=
  { size := rangeToDiff e.range, node := e, name := extractName source e }

/-- Three-way comparison of naturals. -/
def natCmp (a b : Nat) : Ordering :=
  if a < b then .lt else if b < a then .gt else .eq

/-- Code-point comparison of characters. -/
def charCmp (a b : Char) : Ordering :=
  natCmp a.toNat b.toNat

/-- Lexicographic extension of a three-way comparison to lists. -/
def lexCmp (cmp : α → α → Ordering) : List α → List α → Ordering
  | [], [] => .eq
  | [], _ :: _ => .lt
  | _ :: _, [] => .gt
  | a :: as, b :: bs =>
    match cmp a b with
    | .eq => lexCmp cmp as bs
    | o => o

/-- Modelled from the spec: code-point-wise string comparison, the
`alphabetical` mode of the Comparator (`compare` is imported from
`../utils/compare`, which is not among the inspected sources). -/
def strCmp (a b : String) : Ordering :=
  lexCmp charCmp a.data b.data

/-- A token of the `natural` mode: a maximal run of decimal digits or a
maximal run of other characters. -/
inductive NatTok
  | num (cs : List Char)
  | txt (cs : List Char)
  deriving DecidableEq

/-- Numeric value of a run of decimal digits. -/
def digitsToNat (cs : List Char) : Nat :=
  cs.foldl (fun n c => 10 * n + (c.toNat - '0'.toNat)) 0

/-- Modelled from the spec: splits a character list into maximal runs of
decimal digits and maximal runs of other characters, for the `natural` mode
of the Comparator; the head character is merged into the front run of the
tail's split whenever the kinds agree, so every run is maximal. -/
def tokenize : List Char → List NatTok
  | [] => []
  | c :: cs =>
    if c.isDigit then
      match tokenize cs with
      | .num ds :: ts => .num (c :: ds) :: ts
      | ts => .num [c] :: ts
    else
      match tokenize cs with
      | .txt ds :: ts => .txt (c :: ds) :: ts
      | ts => .txt [c] :: ts

/-- Comparison of `natural` tokens: digit runs by numeric value, text runs
code-point-wise; a digit run sorts before a text run. -/
def tokCmp : NatTok → NatTok → Ordering
  | .num a, .num b => natCmp (digitsToNat a) (digitsToNat b)
  | .num _, .txt _ => .lt
  | .txt _, .num _ => .gt
  | .txt a, .txt b => lexCmp charCmp a b

/-- Modelled from the spec: the `natural` mode of the Comparator,
"alphabetical comparison except that maximal runs of decimal digits are
compared by numeric value rather than lexicographically". -/
def naturalCmp (a b : String) : Ordering :=
  lexCmp tokCmp (tokenize a.data) (tokenize b.data)

/-- Modelled from the spec: the three-way comparison of one sort mode over
two `SortingNode`s — `alphabetical` and `natural` compare `name`,
`line-length` compares `size` with ties broken by `alphabetical` on `name`. -/
def modeCmp (t : SortType) (a b : SortingNode) : Ordering :=
  match t with
  | .alphabetical => strCmp a.name b.name
  | .natural => naturalCmp a.name b.name
  | .lineLength =>
    match natCmp a.size b.size with
    | .eq => strCmp a.name b.name
    | o => o

/-- Modelled from the spec: `compare(first, second, options)` (imported from
`../utils/compare`, not among the inspected sources).  It returns `true`
exactly when the pair `(first, second)`, in that original order, is an
ordering violation: the later element is strictly less than the earlier one
under the configured order, where `order: desc` inverts the sign of the
chosen mode. -/
def compare (first second : SortingNode) (o : RuleOptions) : Bool :=
  match o.order with
  | .asc => modeCmp o.type second first == .lt
  | .desc => modeCmp o.type first second == .lt

/-- Modelled from the spec: `pairwise` (imported from `../utils/pairwise`,
not among the inspected sources) visits "every pair of elements adjacent in
the original sequence", in order.  This returns those pairs. -/
def adjacentPairs : List α → List (α × α)
  | a :: b :: rest => (a, b) :: adjacentPairs (b :: rest)
  | _ => []

/-- Modelled from the spec: the single text replacement produced by
`sortNodes` (imported from `../utils/sort-nodes`, not among the inspected
sources).  `span` is the source span it covers and `newOrder` is the target
element order whose concatenated source texts (with the original
inter-element separators) form the replacement text. -/
structure Fix where
  span : SrcRange
  newOrder : List SortingNode
  deriving DecidableEq

/-- The non-strict order under which the target order is computed: `a` may
precede `b` exactly when the pair `(a, b)` is not a violation. -/
def nodeLE (o : RuleOptions) (a b : SortingNode) : Prop :=
  compare a b o = false

instance (o : RuleOptions) : DecidableRel (nodeLE o) :=
  fun a b => inferInstanceAs (Decidable (compare a b o = false))

/-- Modelled from the spec: the target order computed by `sortNodes` — a
stable sort of the partition under the configured order (insertion sort is
stable: ties keep their original relative position), where an element may
precede another exactly when the pair is not a violation. -/
def sortNodesList (o : RuleOptions) (nodes : List SortingNode) : List SortingNode :=
  nodes.insertionSort (nodeLE o)

/-- The source span covering a whole partition: from the first element's
start to the last element's end. -/
def partitionSpan (nodes : List SortingNode) : SrcRange :=
  { start := ((nodes.head?.map (fun n => n.node.range.start)).getD 0),
    stop := ((nodes.getLast?.map (fun n => n.node.range.stop)).getD 0) }

/-- Modelled from the spec: `sortNodes` emits one replacement covering the
whole partition, realising the stably sorted target order. -/
def sortNodes (o : RuleOptions) (nodes : List SortingNode) : Fix :=
  { span := partitionSpan nodes, newOrder := sortNodesList o nodes }

/-- One `context.report` call of the rule: the message id, the `data`
placeholders `first` and `second`, the reported node (`node: second.node`)
and the attached fix. -/
structure Report where
  messageId : String
  dataFirst : String
  dataSecond : String
  anchor : Element
  fix : Fix
  deriving DecidableEq

/-- The report the rule creates for a violating adjacent pair (source lines
115-128): message `unexpectedInterfacePropertiesOrder`, data naming both
members, anchored at the later member's node, fix produced by `sortNodes`
over the whole member list. -/
def mkReport (o : RuleOptions) (nodes : List SortingNode)
    (first second : SortingNode) : Report :=
  { messageId := "unexpectedInterfacePropertiesOrder",
    dataFirst := first.name,
    dataSecond := second.name,
    anchor := second.node,
    fix := sortNodes o nodes }

/-- The `TSInterfaceBody` handler (source lines 65-131) for given completed
options: when the body has more than one member, build the `SortingNode`s and
report every adjacent pair that `compare` judges to be a violation; otherwise
do nothing. -/
def interfaceReports (source : String) (o : RuleOptions) (body : List Element) :
    List Report :=
  if body.length > 1 then
    let nodes := body.map (mkSortingNode source)
    (adjacentPairs nodes).filterMap fun p =>
      if compare p.1 p.2 o then some (mkReport o nodes p.1 p.2) else none
  else []

/-- The user-supplied options object, with both properties optional. -/
structure PartialOptions where
  type : Option SortType := none
  order : Option SortOrder := none
  deriving DecidableEq

/-- Modelled from the spec: `complete` (imported from `../utils/complete`,
not among the inspected sources) — user options "defaulted where absent":
every property missing from the user object is taken from the fallback. -/
def complete (user : Option PartialOptions) (fallback : RuleOptions) : RuleOptions :=
  match user with
  | none => fallback
  | some u => { type := u.type.getD fallback.type, order := u.order.getD fallback.order }

/-- The fallback the handler passes to `complete` (source lines 66-69):
`{ type: SortType.alphabetical, order: SortOrder.asc }`. -/
def handlerFallback : RuleOptions :=
  { type := .alphabetical, order := .asc }

/-- The options the handler actually compares with, given the user-supplied
options object (`context.options.at(0)`). -/
def effectiveOptions (userOptions : Option PartialOptions) : RuleOptions :=
  complete userOptions handlerFallback

/-- The whole rule on one interface body: complete the options, then run the
handler. -/
def runRule (source : String) (userOptions : Option PartialOptions)
    (body : List Element) : List Report :=
  interfaceReports source (effectiveOptions userOptions) body

/-- One property of the rule's JSON schema: its name, its `enum` of allowed
string values, and its declared `default`. -/
structure SchemaProp where
  name : String
  enum : List String
  default : String
  deriving DecidableEq

/-- The rule's `meta.schema` properties (source lines 33-52): `type` with
enum `[alphabetical, natural, line-length]` and default `natural`, `order`
with enum `[asc, desc]` and default `asc`. -/
def schemaProperties : List SchemaProp :=
  [ { name := "type",
      enum := ["alphabetical", "natural", "line-length"],
      default := "natural" },
    { name := "order",
      enum := ["asc", "desc"],
      default := "asc" } ]

/-- `additionalProperties: false` of the rule's schema (source line 50). -/
def schemaAdditionalProperties : Bool :=
  false

/-- A JSON value supplied for one option property, restricted to the value
shapes named by the spec's configuration surface. -/
inductive JsonValue
  | str (s : String)
  | boolean (b : Bool)
  | listVal (xs : List String)
  | objVal (fields : List (String × String))
  deriving DecidableEq

/-- JSON-schema validation of a user options object against the rule's
schema: every property must either be declared (and then its value must be a
string contained in that property's `enum`) or be allowed by
`additionalProperties`. -/
def validateOptions (opts : List (String × JsonValue)) : Bool :=
  opts.all fun kv =>
    match schemaProperties.find? (fun p => p.name == kv.1) with
    | some p =>
      match kv.2 with
      | .str s => p.enum.contains s
      | _ => false
    | none => schemaAdditionalProperties

/-- The rule's `defaultOptions` (source lines 58-63). -/
def defaultOptions : RuleOptions :=
  { type := .alphabetical, order := .asc }

/-- The violation scan alone, reusable on any node sequence: the adjacent
pairs that `compare` flags. -/
def detectViolations (o : RuleOptions) (nodes : List SortingNode) :
    List (SortingNode × SortingNode) :=
  (adjacentPairs nodes).filter fun p => compare p.1 p.2 o

/-! ### Lawfulness of the comparison stack

A three-way comparison is lawful when it is antisymmetric under `swap` and
its non-strict part is transitive; this is exactly what makes the derived
sort relation a total preorder, hence sorting well-defined, as the spec
demands of the Comparator ("must be a strict weak ordering"). -/

/-- A lawful three-way comparison. -/
structure IsLawfulCmp (cmp : α → α → Ordering) : Prop where
  symm : ∀ a b, cmp a b = (cmp b a).swap
  le_trans : ∀ a b c, cmp a b ≠ .gt → cmp b c ≠ .gt → cmp a c ≠ .gt

theorem IsLawfulCmp.gt_iff {cmp : α → α → Ordering} (h : IsLawfulCmp cmp)
    (a b : α) : cmp a b = .gt ↔ cmp b a = .lt := by
  rw [h.symm a b]
  cases cmp b a <;> simp [Ordering.swap]

theorem IsLawfulCmp.eq_iff {cmp : α → α → Ordering} (h : IsLawfulCmp cmp)
    (a b : α) : cmp a b = .eq ↔ cmp b a = .eq := by
  rw [h.symm a b]
  cases cmp b a <;> simp [Ordering.swap]

theorem IsLawfulCmp.refl {cmp : α → α → Ordering} (h : IsLawfulCmp cmp)
    (a : α) : cmp a a = .eq := by
  have := h.symm a a
  cases hc : cmp a a <;> simp [hc, Ordering.swap] at this ⊢

theorem IsLawfulCmp.lt_trans {cmp : α → α → Ordering} (h : IsLawfulCmp cmp)
    {a b c : α} (hab : cmp a b = .lt) (hbc : cmp b c = .lt) : cmp a c = .lt := by
  have hac : cmp a c ≠ .gt :=
    h.le_trans a b c (by simp [hab]) (by simp [hbc])
  cases hc : cmp a c with
  | lt => rfl
  | gt => exact absurd hc hac
  | eq =>
    have hca : cmp c a ≠ .gt := by
      rw [h.symm c a, hc]
      simp [Ordering.swap]
    have hcb : cmp c b ≠ .gt :=
      h.le_trans c a b hca (by simp [hab])
    have : cmp c b = .gt := (h.gt_iff c b).mpr hbc
    exact absurd this hcb

theorem IsLawfulCmp.lt_of_lt_of_eq {cmp : α → α → Ordering} (h : IsLawfulCmp cmp)
    {a b c : α} (hab : cmp a b = .lt) (hbc : cmp b c = .eq) : cmp a c = .lt := by
  have hac : cmp a c ≠ .gt :=
    h.le_trans a b c (by simp [hab]) (by simp [hbc])
  cases hc : cmp a c with
  | lt => rfl
  | gt => exact absurd hc hac
  | eq =>
    have hca : cmp c a ≠ .gt := by
      rw [h.symm c a, hc]
      simp [Ordering.swap]
    have hcb : cmp c b ≠ .gt :=
      h.le_trans c a b hca (by simp [hab])
    have : cmp c b = .eq := (h.eq_iff c b).mpr hbc
    have hba : cmp b a = .gt := (h.gt_iff b a).mpr hab
    have hba' : cmp c a ≠ .gt := by
      rw [h.symm c a, hc]
      simp [Ordering.swap]
    have := h.le_trans b c a (by simp [hbc]) hba'
    exact absurd hba this

theorem IsLawfulCmp.lt_of_eq_of_lt {cmp : α → α → Ordering} (h : IsLawfulCmp cmp)
    {a b c : α} (hab : cmp a b = .eq) (hbc : cmp b c = .lt) : cmp a c = .lt := by
  have hac : cmp a c ≠ .gt :=
    h.le_trans a b c (by simp [hab]) (by simp [hbc])
  cases hc : cmp a c with
  | lt => rfl
  | gt => exact absurd hc hac
  | eq =>
    have hca : cmp c a ≠ .gt := by
      rw [h.symm c a, hc]
      simp [Ordering.swap]
    have hcb : cmp c b ≠ .gt :=
      h.le_trans c a b hca (by simp [hab])
    have : cmp c b = .gt := (h.gt_iff c b).mpr hbc
    exact absurd this hcb

theorem IsLawfulCmp.eq_trans {cmp : α → α → Ordering} (h : IsLawfulCmp cmp)
    {a b c : α} (hab : cmp a b = .eq) (hbc : cmp b c = .eq) : cmp a c = .eq := by
  have hac : cmp a c ≠ .gt :=
    h.le_trans a b c (by simp [hab]) (by simp [hbc])
  have hba : cmp b a = .eq := (h.eq_iff a b).mp hab
  have hcb : cmp c b = .eq := (h.eq_iff b c).mp hbc
  have hca : cmp c a ≠ .gt :=
    h.le_trans c b a (by simp [hcb]) (by simp [hba])
  cases hc : cmp a c with
  | eq => rfl
  | gt => exact absurd hc hac
  | lt =>
    have : cmp c a = .gt := (h.gt_iff c a).mpr hc
    exact absurd this hca

theorem natCmp_ne_gt {a b : Nat} : natCmp a b ≠ .gt ↔ a ≤ b := by
  unfold natCmp
  split_ifs <;> simp <;> omega

theorem natCmp_lawful : IsLawfulCmp natCmp := by
  constructor
  · intro a b
    unfold natCmp
    split_ifs <;> first | rfl | omega
  · intro a b c hab hbc
    rw [natCmp_ne_gt] at hab hbc ⊢
    omega

theorem charCmp_lawful : IsLawfulCmp charCmp := by
  constructor
  · intro a b
    exact natCmp_lawful.symm a.toNat b.toNat
  · intro a b c
    exact natCmp_lawful.le_trans a.toNat b.toNat c.toNat

theorem lexCmp_symm {cmp : α → α → Ordering} (h : IsLawfulCmp cmp) :
    ∀ xs ys, lexCmp cmp xs ys = (lexCmp cmp ys xs).swap
  | [], [] => rfl
  | [], _ :: _ => rfl
  | _ :: _, [] => rfl
  | a :: as, b :: bs => by
    simp only [lexCmp]
    rw [h.symm a b]
    cases hba : cmp b a <;> simp [Ordering.swap, lexCmp_symm h as bs]

theorem lexCmp_le_trans {cmp : α → α → Ordering} (h : IsLawfulCmp cmp) :
    ∀ xs ys zs, lexCmp cmp xs ys ≠ .gt → lexCmp cmp ys zs ≠ .gt →
      lexCmp cmp xs zs ≠ .gt
  | [], _, zs, _, _ => by cases zs <;> simp [lexCmp]
  | _ :: _, [], _, hab, _ => by simp [lexCmp] at hab
  | _ :: _, _ :: _, [], _, hbc => by simp [lexCmp] at hbc
  | a :: as, b :: bs, c :: cs, hab, hbc => by
    simp only [lexCmp] at hab hbc ⊢
    cases h1 : cmp a b <;> rw [h1] at hab <;> cases h2 : cmp b c <;> rw [h2] at hbc
    · rw [h.lt_trans h1 h2]
      simp
    · rw [h.lt_of_lt_of_eq h1 h2]
      simp
    · exact absurd rfl hbc
    · rw [h.lt_of_eq_of_lt h1 h2]
      simp
    · rw [h.eq_trans h1 h2]
      exact lexCmp_le_trans h as bs cs hab hbc
    · exact absurd rfl hbc
    · exact absurd rfl hab
    · exact absurd rfl hab
    · exact absurd rfl hab

theorem lexCmp_lawful {cmp : α → α → Ordering} (h : IsLawfulCmp cmp) :
    IsLawfulCmp (lexCmp cmp) :=
  ⟨lexCmp_symm h, lexCmp_le_trans h⟩

theorem strCmp_lawful : IsLawfulCmp strCmp := by
  constructor
  · intro a b
    exact (lexCmp_lawful charCmp_lawful).symm a.data b.data
  · intro a b c
    exact (lexCmp_lawful charCmp_lawful).le_trans a.data b.data c.data

theorem tokCmp_symm : ∀ a b, tokCmp a b = (tokCmp b a).swap
  | .num _, .num _ => natCmp_lawful.symm _ _
  | .num _, .txt _ => rfl
  | .txt _, .num _ => rfl
  | .txt a, .txt b => (lexCmp_lawful charCmp_lawful).symm a b

theorem tokCmp_le_trans :
    ∀ a b c, tokCmp a b ≠ .gt → tokCmp b c ≠ .gt → tokCmp a c ≠ .gt
  | .num _, .num _, .num _, hab, hbc => natCmp_lawful.le_trans _ _ _ hab hbc
  | .num _, .num _, .txt _, _, _ => by simp [tokCmp]
  | .num _, .txt _, .num _, _, hbc => by simp [tokCmp] at hbc
  | .num _, .txt _, .txt _, _, _ => by simp [tokCmp]
  | .txt _, .num _, _, hab, _ => by simp [tokCmp] at hab
  | .txt _, .txt _, .num _, _, hbc => by simp [tokCmp] at hbc
  | .txt a, .txt b, .txt c, hab, hbc =>
    (lexCmp_lawful charCmp_lawful).le_trans a b c hab hbc

theorem tokCmp_lawful : IsLawfulCmp tokCmp :=
  ⟨tokCmp_symm, tokCmp_le_trans⟩

theorem naturalCmp_lawful : IsLawfulCmp naturalCmp := by
  constructor
  · intro a b
    exact (lexCmp_lawful tokCmp_lawful).symm (tokenize a.data) (tokenize b.data)
  · intro a b c
    exact (lexCmp_lawful tokCmp_lawful).le_trans (tokenize a.data)
      (tokenize b.data) (tokenize c.data)

theorem modeCmp_lawful (t : SortType) : IsLawfulCmp (modeCmp t) := by
  cases t with
  | alphabetical =>
    exact ⟨fun a b => strCmp_lawful.symm a.name b.name,
      fun a b c => strCmp_lawful.le_trans a.name b.name c.name⟩
  | natural =>
    exact ⟨fun a b => naturalCmp_lawful.symm a.name b.name,
      fun a b c => naturalCmp_lawful.le_trans a.name b.name c.name⟩
  | lineLength =>
    constructor
    · intro a b
      simp only [modeCmp]
      rw [natCmp_lawful.symm a.size b.size]
      cases natCmp b.size a.size <;>
        simp [Ordering.swap, strCmp_lawful.symm a.name b.name]
    · intro a b c hab hbc
      simp only [modeCmp] at hab hbc ⊢
      cases h1 : natCmp a.size b.size <;> rw [h1] at hab <;>
        cases h2 : natCmp b.size c.size <;> rw [h2] at hbc
      · rw [natCmp_lawful.lt_trans h1 h2]
        simp
      · rw [natCmp_lawful.lt_of_lt_of_eq h1 h2]
        simp
      · exact absurd rfl hbc
      · rw [natCmp_lawful.lt_of_eq_of_lt h1 h2]
        simp
      · rw [natCmp_lawful.eq_trans h1 h2]
        exact strCmp_lawful.le_trans a.name b.name c.name hab hbc
      · exact absurd rfl hbc
      · exact absurd rfl hab
      · exact absurd rfl hab
      · exact absurd rfl hab

/-! ### The sort relation derived from `compare` -/

/-- The non-strict ordering the configured comparison induces on nodes:
mode-wise, `a` is at most `b` under the configured direction. -/
def cmpLE (o : RuleOptions) (a b : SortingNode) : Prop :=
  match o.order with
  | .asc => modeCmp o.type a b ≠ .gt
  | .desc => modeCmp o.type b a ≠ .gt

/-- `(a, b)` is not a violation exactly when `a` is at most `b` under the
configured order. -/
theorem compare_eq_false_iff (o : RuleOptions) (a b : SortingNode) :
    compare a b o = false ↔ cmpLE o a b := by
  cases o with
  | mk t ord =>
    cases ord
    · show (modeCmp t b a == .lt) = false ↔ modeCmp t a b ≠ .gt
      have h := (modeCmp_lawful t).gt_iff a b
      constructor
      · intro hb hg
        rw [h] at hg
        rw [hg] at hb
        exact absurd hb (by decide)
      · intro hn
        cases hcb : modeCmp t b a with
        | lt => exact absurd (h.mpr hcb) hn
        | eq => rfl
        | gt => rfl
    · show (modeCmp t a b == .lt) = false ↔ modeCmp t b a ≠ .gt
      have h := (modeCmp_lawful t).gt_iff b a
      constructor
      · intro hb hg
        rw [h] at hg
        rw [hg] at hb
        exact absurd hb (by decide)
      · intro hn
        cases hcb : modeCmp t a b with
        | lt => exact absurd (h.mpr hcb) hn
        | eq => rfl
        | gt => rfl

theorem modeCmp_not_gt_total (t : SortType) (a b : SortingNode) :
    modeCmp t a b ≠ .gt ∨ modeCmp t b a ≠ .gt := by
  by_cases h : modeCmp t a b = .gt
  · have := ((modeCmp_lawful t).gt_iff a b).mp h
    right
    simp [this]
  · exact Or.inl h

theorem nodeLE_total (o : RuleOptions) (a b : SortingNode) :
    nodeLE o a b ∨ nodeLE o b a := by
  unfold nodeLE
  rw [compare_eq_false_iff, compare_eq_false_iff]
  cases o with
  | mk t ord =>
    cases ord
    · exact modeCmp_not_gt_total t a b
    · exact modeCmp_not_gt_total t b a

theorem nodeLE_trans (o : RuleOptions) (a b c : SortingNode) :
    nodeLE o a b → nodeLE o b c → nodeLE o a c := by
  unfold nodeLE
  rw [compare_eq_false_iff, compare_eq_false_iff, compare_eq_false_iff]
  cases o with
  | mk t ord =>
    cases ord
    · exact fun hab hbc => (modeCmp_lawful t).le_trans a b c hab hbc
    · exact fun hab hbc => (modeCmp_lawful t).le_trans c b a hbc hab

/-- The target order `sortNodes` computes is sorted: no adjacent pair of it
is a violation. -/
theorem sortNodesList_sorted (o : RuleOptions) (nodes : List SortingNode) :
    List.Pairwise (nodeLE o) (sortNodesList o nodes) := by
  haveI : IsTotal SortingNode (nodeLE o) := ⟨nodeLE_total o⟩
  haveI : IsTrans SortingNode (nodeLE o) := ⟨nodeLE_trans o⟩
  exact List.sorted_insertionSort (nodeLE o) nodes

/-- The target order is a permutation of the original partition. -/
theorem sortNodesList_perm (o : RuleOptions) (nodes : List SortingNode) :
    (sortNodesList o nodes).Perm nodes :=
  List.perm_insertionSort (nodeLE o) nodes

/-- Stability of the target order: any two elements that may legitimately
stay in their original relative position do stay in it. -/
theorem sortNodesList_stable (o : RuleOptions) (nodes : List SortingNode)
    (a b : SortingNode) (h : List.Sublist [a, b] nodes) (hab : nodeLE o a b) :
    List.Sublist [a, b] (sortNodesList o nodes) :=
  List.pair_sublist_insertionSort hab h

/-! ### Adjacent pairs -/

theorem adjacentPairs_of_chain {R : α → α → Prop} :
    ∀ {l : List α}, List.Chain' R l → ∀ p ∈ adjacentPairs l, R p.1 p.2
  | [], _, _, hp => by simp [adjacentPairs] at hp
  | [_], _, _, hp => by simp [adjacentPairs] at hp
  | a :: b :: t, h, p, hp => by
    rw [List.chain'_cons] at h
    rcases (by simpa [adjacentPairs] using hp : p = (a, b) ∨ p ∈ adjacentPairs (b :: t)) with
      rfl | hp'
    · exact h.1
    · exact adjacentPairs_of_chain h.2 p hp'

/-- Re-running the violation scan on the synthesized target order finds
nothing. -/
theorem detectViolations_sortNodesList (o : RuleOptions) (nodes : List SortingNode) :
    detectViolations o (sortNodesList o nodes) = [] := by
  unfold detectViolations
  rw [List.filter_eq_nil_iff]
  intro p hp
  have := adjacentPairs_of_chain (sortNodesList_sorted o nodes).chain' p hp
  simp [nodeLE] at this
  simp [this]

theorem filterMap_ext {f g : α → Option β} (l : List α) (h : ∀ a, f a = g a) :
    l.filterMap f = l.filterMap g := by
  rw [show f = g from funext h]

/-- The pair of elements at positions `i` and `i + 1`, when both exist. -/
def pairAt (l : List α) (i : Nat) : Option (α × α) :=
  match l[i]?, l[i + 1]? with
  | some a, some b => some (a, b)
  | _, _ => none

theorem pairAt_cons_succ (a : α) (l : List α) (i : Nat) :
    pairAt (a :: l) (i + 1) = pairAt l i := by
  simp [pairAt, List.getElem?_cons_succ]

/-- Index-based description of the adjacent pairs: pair `i` couples the
element at position `i` with the element at position `i + 1`. -/
theorem adjacentPairs_eq_range :
    ∀ l : List α, adjacentPairs l = (List.range (l.length - 1)).filterMap (pairAt l)
  | [] => rfl
  | [_] => rfl
  | a :: b :: t => by
    have ih := adjacentPairs_eq_range (b :: t)
    show (a, b) :: adjacentPairs (b :: t) = _
    rw [ih]
    simp only [List.length_cons, Nat.add_sub_cancel]
    rw [List.range_succ_eq_map,
      List.filterMap_cons_some (show pairAt (a :: b :: t) 0 = some (a, b) by
        simp [pairAt]),
      List.filterMap_map]
    congr 1
    apply filterMap_ext
    intro i
    show pairAt (b :: t) i = pairAt (a :: b :: t) (Nat.succ i)
    exact (pairAt_cons_succ a (b :: t) i).symm

/-- Every report the handler creates carries the whole-partition fix. -/
theorem fix_of_mem_interfaceReports {source : String} {o : RuleOptions}
    {body : List Element} {r : Report} (h : r ∈ interfaceReports source o body) :
    r.fix = sortNodes o (body.map (mkSortingNode source)) := by
  unfold interfaceReports at h
  split at h
  · simp only [List.mem_filterMap] at h
    obtain ⟨p, -, hp⟩ := h
    split at hp
    · cases hp
      rfl
    · cases hp
  · cases h

/-! ### Concrete sample data for witnesses and counterexamples -/

/-- The options every sample uses: `alphabetical`, `asc`. -/
def exOpts : RuleOptions :=
  { type := .alphabetical, order := .asc }

/-- Source text of a three-member interface `c, b, a`. -/
def exSource : String :=
  "interface T \x7b c: number; b: number; a: number \x7d"

def exPropC : Element :=
  .propertySignature (.ident "c") false (some ⟨15, 23⟩) ⟨14, 23⟩

def exPropB : Element :=
  .propertySignature (.ident "b") false (some ⟨26, 34⟩) ⟨25, 34⟩

def exPropA : Element :=
  .propertySignature (.ident "a") false (some ⟨37, 45⟩) ⟨36, 45⟩

/-- A body whose members are named `c`, `b`, `a`: two adjacent violations
under `alphabetical` ascending. -/
def exBodyCBA : List Element :=
  [exPropC, exPropB, exPropA]

/-- A body whose members are named `b`, `a` (its sorted order is `a`, `b`). -/
def exBodyAB : List Element :=
  [exPropA, exPropB]

def exNodes : List SortingNode :=
  exBodyCBA.map (mkSortingNode exSource)

/-- The first report the rule produces on `exBodyCBA`. -/
def exReport : Report :=
  mkReport exOpts exNodes (mkSortingNode exSource exPropC) (mkSortingNode exSource exPropB)

def exElemIdx : Element :=
  .indexSignature none ⟨2, 9⟩

def exElemMeth : Element :=
  .methodLike none false none ⟨2, 9⟩

/-! ### The claims -/

/-- The C1 description of the handler's output, stated over indices: for
every position `i` of the member list, there is exactly one report exactly
when the pair of nodes at positions `i` and `i + 1` exists and `compare`
judges the later one strictly less than the earlier one; that report is
anchored at the later member's node and its message data names both. -/
def specReports (source : String) (o : RuleOptions) (body : List Element) :
    List Report :=
  let nodes := body.map (mkSortingNode source)
  (List.range (nodes.length - 1)).filterMap fun i =>
    (pairAt nodes i).bind fun p =>
      if compare p.1 p.2 o then
        some { messageId := "unexpectedInterfacePropertiesOrder",
               dataFirst := p.1.name,
               dataSecond := p.2.name,
               anchor := p.2.node,
               fix := sortNodes o nodes }
      else none

/-- C1: for every container of at least two elements, the rule scans every
pair of elements adjacent in the original sequence and reports a violation
exactly when the Comparator judges the later element strictly less than the
earlier one under the configured order; each violation is reported exactly
once, anchored to the later element, and its message names both the later
element and the earlier element it should precede. -/
theorem c1_adjacent_scan_reports (source : String) (o : RuleOptions)
    (body : List Element) (h : 2 ≤ body.length) :
    interfaceReports source o body = specReports source o body := by
  have hb : body.length > 1 := h
  simp only [interfaceReports, specReports, if_pos hb]
  rw [adjacentPairs_eq_range, List.filterMap_filterMap]
  apply filterMap_ext
  intro i
  rfl

theorem c1_adjacent_scan_reports_witness :
    2 ≤ exBodyCBA.length ∧
      interfaceReports exSource exOpts exBodyCBA = specReports exSource exOpts exBodyCBA :=
  ⟨by decide, c1_adjacent_scan_reports exSource exOpts exBodyCBA (by decide)⟩

/-- C3: for any element sequence already in sorted order under a given
configuration (no adjacent pair is a violation), the detection pass reports
zero violations and the fix synthesizer is never invoked: no report is
created, so no fix is produced. -/
theorem c3_sorted_input_no_reports (source : String) (o : RuleOptions)
    (body : List Element)
    (h : List.Chain' (fun a b => compare a b o = false)
      (body.map (mkSortingNode source))) :
    interfaceReports source o body = [] ∧
      (interfaceReports source o body).map Report.fix = [] := by
  have hr : interfaceReports source o body = [] := by
    simp only [interfaceReports]
    split
    · rw [List.filterMap_eq_nil_iff]
      intro p hp
      have hle := adjacentPairs_of_chain h p hp
      simp [hle]
    · rfl
  exact ⟨hr, by rw [hr]; rfl⟩

theorem c3_sorted_input_no_reports_witness :
    List.Chain' (fun a b => compare a b exOpts = false)
        (exBodyAB.map (mkSortingNode exSource)) ∧
      (interfaceReports exSource exOpts exBodyAB = [] ∧
        (interfaceReports exSource exOpts exBodyAB).map Report.fix = []) :=
  ⟨by
    rw [show exBodyAB.map (mkSortingNode exSource) =
        [mkSortingNode exSource exPropA, mkSortingNode exSource exPropB] from rfl,
      List.chain'_pair]
    decide,
  c3_sorted_input_no_reports exSource exOpts exBodyAB (by
    rw [show exBodyAB.map (mkSortingNode exSource) =
        [mkSortingNode exSource exPropA, mkSortingNode exSource exPropB] from rfl,
      List.chain'_pair]
    decide)⟩

/-- C5: for any unsorted element sequence (the detection pass reported at
least one violation), re-running the detection pass on the element order
realized by any synthesized fix yields zero violations. -/
theorem c5_fix_idempotent (source : String) (o : RuleOptions)
    (body : List Element) (h : interfaceReports source o body ≠ []) :
    ∀ r ∈ interfaceReports source o body,
      detectViolations o r.fix.newOrder = [] := by
  intro r hr
  rw [fix_of_mem_interfaceReports hr]
  exact detectViolations_sortNodesList o _

theorem c5_fix_idempotent_witness :
    interfaceReports exSource exOpts exBodyCBA ≠ [] ∧
      ∀ r ∈ interfaceReports exSource exOpts exBodyCBA,
        detectViolations exOpts r.fix.newOrder = [] :=
  ⟨by decide, c5_fix_idempotent exSource exOpts exBodyCBA (by decide)⟩

/-- C8: for every element, the recorded `size` equals the element's end
offset minus its start offset over the full element span, and this value is
independent of how `name` was derived: any two elements with the same
range get the same size, whatever their shapes and sources. -/
theorem c8_size_is_span (source source' : String) (e e' : Element)
    (h : e.range = e'.range) :
    (mkSortingNode source e).size = e.range.stop - e.range.start ∧
    (mkSortingNode source e).size = (mkSortingNode source' e').size := by
  constructor
  · rfl
  · show rangeToDiff e.range = rangeToDiff e'.range
    rw [h]

theorem c8_size_is_span_witness :
    exElemIdx.range = exElemMeth.range ∧
      ((mkSortingNode "abcdefghij" exElemIdx).size =
          exElemIdx.range.stop - exElemIdx.range.start ∧
        (mkSortingNode "abcdefghij" exElemIdx).size =
          (mkSortingNode "zzz" exElemMeth).size) :=
  ⟨by decide, c8_size_is_span "abcdefghij" "zzz" exElemIdx exElemMeth (by decide)⟩

/-- C9: for every interface body containing fewer than two members, the rule
performs no analysis: it reports no diagnostic and emits no fix, regardless
of the configuration. -/
theorem c9_small_body_no_reports (source : String)
    (userOptions : Option PartialOptions) (body : List Element)
    (h : body.length < 2) :
    runRule source userOptions body = [] := by
  unfold runRule interfaceReports
  rw [if_neg (by omega)]

theorem c9_small_body_no_reports_witness :
    ([exElemIdx] : List Element).length < 2 ∧
      runRule "x" none [exElemIdx] = [] :=
  ⟨by decide, c9_small_body_no_reports "x" none [exElemIdx] (by decide)⟩

/-- C10: when the user supplies no options object, the effective
configuration used for comparison is `type = alphabetical`, `order = asc`
(this is also the rule's `defaultOptions`), even though the rule's published
JSON schema declares `natural` as the default of `type`. -/
theorem c10_default_options :
    effectiveOptions none = { type := SortType.alphabetical, order := SortOrder.asc } ∧
    defaultOptions = { type := SortType.alphabetical, order := SortOrder.asc } ∧
    (schemaProperties.find? (fun p => p.name == "type")).map SchemaProp.default =
      some "natural" ∧
    SortType.natural ≠ SortType.alphabetical :=
  ⟨rfl, rfl, by decide, by decide⟩

/-- The name-extraction policy exactly as claim C2 states it, for every
member shape alike: an identifier key yields its text, a literal key its
stringified value; otherwise the raw source slice from the element's start
up to the earliest of its type-annotation start and its
return-type-annotation start, falling back to the element's end minus one
character when the element carries the optional marker. -/
def claimName (source : String) (e : Element) : String :=
  match e.keyOf with
  | some (.ident text) => text
  | some (.lit value) => value
  | _ =>
    let starts := ((e.typeAnnOf).map SrcRange.start).toList ++
      ((e.returnTypeOf).map SrcRange.start).toList
    let endPos :=
      match starts with
      | [] => e.range.stop - (if e.optionalOf then 1 else 0)
      | s :: rest => rest.foldl min s
    sliceText source e.range.start endPos

/-- The policy the code actually implements, written shape by shape: the
identifier and literal rules apply only to property signatures; an index
signature is sliced up to its type-annotation start (or its end); any other
member is sliced up to its return-type start (or its end); the
optional-marker adjustment applies only in the property-signature fallback,
when no type annotation is present. -/
def amendedName (source : String) (e : Element) : String :=
  match e with
  | .propertySignature key optional typeAnn range =>
    match key with
    | .ident text => text
    | .lit value => value
    | .computed =>
      sliceText source range.start
        (( typeAnn.map SrcRange.start).getD (range.stop - (if optional then 1 else 0)))
  | .indexSignature typeAnn range =>
    sliceText source range.start (( typeAnn.map SrcRange.start).getD range.stop)
  | .methodLike _ _ returnType range =>
    sliceText source range.start ((returnType.map SrcRange.start).getD range.stop)

/-- A method signature whose key is the plain identifier `foo`: the element
of source `foo(): void`, with the return-type annotation `: void` starting
at offset 5. -/
def exMethodElem : Element :=
  .methodLike (some (.ident "foo")) false (some ⟨5, 11⟩) ⟨0, 11⟩

def exMethodSource : String :=
  "foo(): void"

/-- C2, counterexample: a method signature has a plain identifier key `foo`,
yet the extracted name is the slice `foo()` and not the identifier's text,
contradicting the claim's shape-independent "plain identifier key yields its
text" clause. -/
theorem c2_name_policy_counterexample :
    Element.keyOf exMethodElem = some (.ident "foo") ∧
    extractName exMethodSource exMethodElem = "foo()" ∧
    claimName exMethodSource exMethodElem = "foo" ∧
    extractName exMethodSource exMethodElem ≠ claimName exMethodSource exMethodElem := by
  refine ⟨rfl, by decide, by decide, by decide⟩

/-- C2, amended: the extraction follows the per-shape policy of
`amendedName`; for every member whose type annotation (when present) does
not start at offset zero — true of every member of a well-formed source,
since an annotation always follows the member's key — the code computes
exactly that. -/
theorem c2_name_policy_amended (source : String) (e : Element)
    (h : ∀ r, Element.typeAnnOf e = some r → 0 < r.start) :
    extractName source e = amendedName source e := by
  cases e with
  | propertySignature key optional typeAnn range =>
    cases key with
    | ident text => rfl
    | lit value => rfl
    | computed =>
      cases typeAnn with
      | none => rfl
      | some r =>
        have hr : r.start ≠ 0 :=
          Nat.pos_iff_ne_zero.mp (h r rfl)
        simp [extractName, amendedName, hr]
  | indexSignature typeAnn range => rfl
  | methodLike key optional returnType range => rfl

/-- A property signature with a computed key, the element of source
`[k]: T`, with the type annotation `: T` starting at offset 3. -/
def exComputedElem : Element :=
  .propertySignature .computed false (some ⟨3, 6⟩) ⟨0, 6⟩

def exComputedSource : String :=
  "[k]: T"

theorem c2_name_policy_amended_witness :
    (∀ r, Element.typeAnnOf exComputedElem = some r → 0 < r.start) ∧
      extractName exComputedSource exComputedElem =
        amendedName exComputedSource exComputedElem :=
  ⟨fun r hr => by cases hr; decide,
    c2_name_policy_amended exComputedSource exComputedElem
      (fun r hr => by cases hr; decide)⟩

/-- A property signature whose key is the empty string literal: the element
of source `"": string`, where the stringified literal value is empty. -/
def exEmptyLitElem : Element :=
  .propertySignature (.lit "") false (some ⟨2, 10⟩) ⟨0, 10⟩

def exEmptyLitSource : String :=
  "\"\": string"

/-- C6, counterexample: the member `"": string` of an interface body is
syntactically valid, its key is the string literal `""`, whose stringified
value — and therefore the extracted sort key — is the empty string. -/
theorem c6_nonempty_name_counterexample :
    Element.keyOf exEmptyLitElem = some (.lit "") ∧
    extractName exEmptyLitSource exEmptyLitElem = "" ∧
    (mkSortingNode exEmptyLitSource exEmptyLitElem).name = "" := by
  refine ⟨rfl, rfl, rfl⟩

theorem sliceText_ne_empty {source : String} {a b : Nat}
    (ha : a < source.length) (hab : a < b) : sliceText source a b ≠ "" := by
  intro hc
  have hlen : (sliceText source a b).data.length = 0 := by
    rw [hc]
    rfl
  have hmin : (sliceText source a b).data.length =
      min (b - a) (source.data.length - a) := by
    simp [sliceText]
  have hsl : source.length = source.data.length := rfl
  rw [hsl] at ha
  omega

/-- C6, amended: key extraction is total by construction, and the extracted
name is non-empty for every element whose identifier key text or stringified
literal value is non-empty (an empty stringified literal, as in `"": T`, is
the one exception) and whose ranges are well-formed: the element starts
inside the source, its annotations start strictly after it, and it extends
past its start even net of the optional marker. -/
theorem c6_nonempty_name_amended (source : String) (e : Element)
    (hstart : e.range.start < source.length)
    (hident : ∀ t, e.keyOf = some (.ident t) → t ≠ "")
    (hlit : ∀ v, e.keyOf = some (.lit v) → v ≠ "")
    (hta : ∀ r, e.typeAnnOf = some r → e.range.start < r.start)
    (hrt : ∀ r, e.returnTypeOf = some r → e.range.start < r.start)
    (hstop : e.range.start < e.range.stop - (if e.optionalOf then 1 else 0)) :
    extractName source e ≠ "" := by
  cases e with
  | propertySignature key optional typeAnn range =>
    cases key with
    | ident text => exact hident text rfl
    | lit value => exact hlit value rfl
    | computed =>
      cases typeAnn with
      | none =>
        exact sliceText_ne_empty hstart hstop
      | some r =>
        show sliceText source range.start
          (if r.start ≠ 0 then r.start
            else range.stop - (if optional then 1 else 0)) ≠ ""
        by_cases h0 : r.start ≠ 0
        · rw [if_pos h0]
          exact sliceText_ne_empty hstart (hta r rfl)
        · rw [if_neg h0]
          exact sliceText_ne_empty hstart hstop
  | indexSignature typeAnn range =>
    cases typeAnn with
    | none => exact sliceText_ne_empty hstart hstop
    | some r => exact sliceText_ne_empty hstart (hta r rfl)
  | methodLike key optional returnType range =>
    cases returnType with
    | none =>
      have h2 : range.start < range.stop - (if optional then 1 else 0) := hstop
      refine sliceText_ne_empty hstart ?_
      have h3 : range.start < range.stop := by
        cases optional <;> simp at h2 <;> omega
      simpa using h3
    | some r => exact sliceText_ne_empty hstart (hrt r rfl)

theorem c6_nonempty_name_amended_witness :
    exComputedElem.range.start < exComputedSource.length ∧
    (∀ t, exComputedElem.keyOf = some (.ident t) → t ≠ "") ∧
    (∀ v, exComputedElem.keyOf = some (.lit v) → v ≠ "") ∧
    (∀ r, exComputedElem.typeAnnOf = some r → exComputedElem.range.start < r.start) ∧
    (∀ r, exComputedElem.returnTypeOf = some r → exComputedElem.range.start < r.start) ∧
    (exComputedElem.range.start <
      exComputedElem.range.stop - (if exComputedElem.optionalOf then 1 else 0)) ∧
    extractName exComputedSource exComputedElem ≠ "" :=
  ⟨by decide,
    (fun t ht => by cases ht),
    (fun v hv => by cases hv),
    (fun r hr => by cases hr; decide),
    (fun r hr => by cases hr),
    by decide,
    c6_nonempty_name_amended exComputedSource exComputedElem (by decide)
      (fun t ht => by cases ht) (fun v hv => by cases hv)
      (fun r hr => by cases hr; decide) (fun r hr => by cases hr)
      (by decide)⟩

/-- C4, counterexample: on the three-member body `c, b, a` (one partition)
the handler finds two adjacent violations and creates two reports, each
carrying its own — identical — whole-partition fix, so two edits are emitted
in one reporting pass over the partition, not one. -/
theorem c4_single_edit_counterexample :
    ((interfaceReports exSource exOpts exBodyCBA).map Report.fix).length = 2 ∧
    ((interfaceReports exSource exOpts exBodyCBA).map Report.fix).length ≠ 1 :=
  ⟨by decide, by decide⟩

/-- C4, amended: every report's fix recomputes the target order of the
entire partition as a stable sort under the configured order — a sorted
permutation of the original members in which every non-violating pair keeps
its original relative position — and emits a single replacement covering the
whole partition's span; one such fix is attached to every violation report,
so a pass with several adjacency violations emits several identical
whole-partition edits rather than exactly one. -/
theorem c4_fix_whole_partition_amended (source : String) (o : RuleOptions)
    (body : List Element) (r : Report)
    (h : r ∈ interfaceReports source o body) :
    r.fix = sortNodes o (body.map (mkSortingNode source)) ∧
    r.fix.span = partitionSpan (body.map (mkSortingNode source)) ∧
    List.Perm r.fix.newOrder (body.map (mkSortingNode source)) ∧
    List.Pairwise (nodeLE o) r.fix.newOrder ∧
    (∀ a b, List.Sublist [a, b] (body.map (mkSortingNode source)) → nodeLE o a b →
      List.Sublist [a, b] r.fix.newOrder) := by
  have hfix := fix_of_mem_interfaceReports h
  refine ⟨hfix, by rw [hfix]; rfl, ?_, ?_, ?_⟩
  · rw [hfix]
    exact sortNodesList_perm o _
  · rw [hfix]
    exact sortNodesList_sorted o _
  · intro a b hs hab
    rw [hfix]
    exact sortNodesList_stable o _ a b hs hab

theorem c4_fix_whole_partition_amended_witness :
    exReport ∈ interfaceReports exSource exOpts exBodyCBA ∧
      (exReport.fix = sortNodes exOpts (exBodyCBA.map (mkSortingNode exSource)) ∧
        exReport.fix.span = partitionSpan (exBodyCBA.map (mkSortingNode exSource)) ∧
        List.Perm exReport.fix.newOrder (exBodyCBA.map (mkSortingNode exSource)) ∧
        List.Pairwise (nodeLE exOpts) exReport.fix.newOrder ∧
        (∀ a b, List.Sublist [a, b] (exBodyCBA.map (mkSortingNode exSource)) →
          nodeLE exOpts a b → List.Sublist [a, b] exReport.fix.newOrder)) :=
  ⟨by decide,
    c4_fix_whole_partition_amended exSource exOpts exBodyCBA exReport (by decide)⟩

/-- C7, counterexample: the rule's schema rejects an options object carrying
any of `ignoreCase`, `partitionByComment`, `groups` or `customGroups` — the
schema declares only `type` and `order` and `additionalProperties: false` —
contradicting the claimed configuration surface. -/
theorem c7_config_surface_counterexample :
    validateOptions [("ignoreCase", JsonValue.boolean true)] = false ∧
    validateOptions [("partitionByComment", JsonValue.boolean false)] = false ∧
    validateOptions [("groups", JsonValue.listVal [])] = false ∧
    validateOptions [("customGroups", JsonValue.objVal [])] = false :=
  ⟨by decide, by decide, by decide, by decide⟩

theorem validateProp_iff (kv : String × JsonValue) :
    (match schemaProperties.find? (fun p => p.name == kv.1) with
      | some p =>
        match kv.2 with
        | JsonValue.str s => p.enum.contains s
        | _ => false
      | none => schemaAdditionalProperties) = true ↔
      ((kv.1 = "type" ∧ ∃ s, kv.2 = JsonValue.str s ∧
          (s = "alphabetical" ∨ s = "natural" ∨ s = "line-length")) ∨
        (kv.1 = "order" ∧ ∃ s, kv.2 = JsonValue.str s ∧
          (s = "asc" ∨ s = "desc"))) := by
  obtain ⟨k, v⟩ := kv
  by_cases hk1 : k = "type"
  · subst hk1
    have hf : schemaProperties.find? (fun p => p.name == "type") =
        some ⟨"type", ["alphabetical", "natural", "line-length"], "natural"⟩ := by
      decide
    rw [hf]
    cases v <;> simp [List.contains]
  · by_cases hk2 : k = "order"
    · subst hk2
      have hf : schemaProperties.find? (fun p => p.name == "order") =
          some ⟨"order", ["asc", "desc"], "asc"⟩ := by
        decide
      rw [hf]
      cases v <;> simp [List.contains, hk1]
    · have e1 : (("type" : String) == k) = false := by
        simp [Ne.symm hk1]
      have e2 : (("order" : String) == k) = false := by
        simp [Ne.symm hk2]
      have hf : schemaProperties.find? (fun p => p.name == k) = none := by
        simp [schemaProperties, List.find?, e1, e2]
      rw [hf]
      simp [schemaAdditionalProperties, hk1, hk2]

/-- C7, amended: the rule's schema accepts exactly the options objects whose
every property is `type` carrying one of the strings `alphabetical`,
`natural`, `line-length`, or `order` carrying `asc` or `desc`; every other
property — `ignoreCase`, `partitionByComment`, `groups`, `customGroups`
included — is rejected by `additionalProperties: false`, and unknown mode
values are rejected by the `enum`, before any pass runs. -/
theorem c7_config_surface_amended (opts : List (String × JsonValue)) :
    validateOptions opts = true ↔
      ∀ kv ∈ opts,
        (kv.1 = "type" ∧ ∃ s, kv.2 = JsonValue.str s ∧
          (s = "alphabetical" ∨ s = "natural" ∨ s = "line-length")) ∨
        (kv.1 = "order" ∧ ∃ s, kv.2 = JsonValue.str s ∧
          (s = "asc" ∨ s = "desc")) := by
  unfold validateOptions
  rw [List.all_eq_true]
  exact forall_congr' fun kv => imp_congr_right fun _ => validateProp_iff kv

end SortInterfaces
